import Mathlib

/-!
A shallow embedding of the LSM storage engine of src/db/lsm.rs
(types `LSMTree`, `SSTable`; operations `new`, `insert`, `get`,
`delete`, `flush_memtable`, `write_buffer`, `read_value_from_buffer`,
`read_value_from_sstable`), together with theorems checking the
natural-language specification against it.

Modelling conventions:
* u64 keys and u32 lengths are `Nat` with explicit bounds, or with
  truncation made explicit where the code truncates
  (`serialized.len() as u32`).
* `BTreeMap` / `BTreeSet` are modelled as key-sorted association
  lists / sorted lists; the operations below implement exactly the
  map semantics the code relies on: lookup, overwrite-insert,
  remove, and iteration in ascending key order.
* The bson serialization codec is an external crate; the spec treats
  it as an opaque encode / decode pair, so the development is
  parametric in a `Codec`.  An executable `sampleCodec` instantiates
  the codec-parametric theorems on concrete states.
* File I/O can fail; a `FailEnv` records which of the four fallible
  steps of a flush fail.  A Rust panic (`expect`, out-of-range
  slicing) is modelled as a distinguished `panicked` outcome,
  distinct from a returned `Err`.
-/

namespace Lsm

/-- Little-endian encoding of `n` on `w` bytes (`write_u64` /
`write_u32` with `LittleEndian`); truncates to `n % 256 ^ w`. -/
def toLEBytes : Nat → Nat → List Nat
  | 0, _ => []
  | w + 1, n => n % 256 :: toLEBytes w (n / 256)

/-- Little-endian decoding of a byte list (`read_u64` /
`read_u32`). -/
def fromLEBytes : List Nat → Nat
  | [] => 0
  | b :: rest => b + 256 * fromLEBytes rest

/-- The value type of src/db/vector.rs: an id and the payload
entries, each f64 modelled by its 64-bit pattern.  The engine never
computes with the floats; it only stores and returns them. -/
structure Vector where
  id : Nat
  data : List Nat
deriving DecidableEq

/-- Modelled from the spec: the record serialization codec (the bson
crate, external to this repository) is "treated as an opaque
encode/decode pair" (spec, sections 1 and 4.1).  `ser` is
`bson::to_vec` (total on this value type), `deser` is
`bson::from_slice`, which can fail. -/
structure Codec where
  ser : Vector → List Nat
  deser : List Nat → Option Vector

/-- `BTreeMap::get`. -/
def btLookup {α : Type} : List (Nat × α) → Nat → Option α
  | [], _ => none
  | p :: rest, key => if key = p.1 then some p.2 else btLookup rest key

/-- `BTreeMap::insert` on a key-sorted association list: places the
key at its ordered position, overwriting a previous binding. -/
def btInsert {α : Type} : List (Nat × α) → Nat → α → List (Nat × α)
  | [], key, v => [(key, v)]
  | p :: rest, key, v =>
    if key < p.1 then (key, v) :: p :: rest
    else if key = p.1 then (key, v) :: rest
    else p :: btInsert rest key v

/-- `BTreeMap::remove`: the removed binding (if any) together with
the map after removal. -/
def btRemove {α : Type} : List (Nat × α) → Nat → Option α × List (Nat × α)
  | [], _ => (none, [])
  | p :: rest, key =>
    if key = p.1 then (some p.2, rest)
    else ((btRemove rest key).1, p :: (btRemove rest key).2)

/-- `BTreeSet::insert` on a sorted list. -/
def setInsert : List Nat → Nat → List Nat
  | [], key => [key]
  | k :: rest, key =>
    if key < k then key :: k :: rest
    else if key = k then k :: rest
    else k :: setInsert rest key

/-- `struct SSTable`: the memory-mapped file contents as bytes, the
key-to-byte-offset index, and the tombstone set. -/
structure SSTable where
  mmap : List Nat
  index : List (Nat × Nat)
  tombstones : List Nat
deriving DecidableEq

/-- `struct LSMTree`.  The `directory` path only feeds file naming
and directory creation and has no in-memory semantics, so it is not
modelled. -/
structure LSMTree where
  memtable : List (Nat × Vector)
  sstables : List SSTable
  sstable_size : Nat
  max_open_sstables : Nat
deriving DecidableEq

/-- `LSMTree::new` (with the directory creation succeeding). -/
def LSMTree.new : LSMTree :=
  { memtable := [], sstables := [], sstable_size := 10, max_open_sstables := 10 }

/-- One encoded record, as emitted by one iteration of the
`write_buffer` loop: the key as 8 little-endian bytes, the
serialized length as 4 little-endian bytes (`serialized.len() as
u32` truncates), then the serialized value. -/
def writeRecord (c : Codec) (key : Nat) (v : Vector) : List Nat :=
  toLEBytes 8 key ++ toLEBytes 4 (c.ser v).length ++ c.ser v

/-- `LSMTree::write_buffer`: iterates the memtable in ascending key
order, appending each record to the buffer after noting the record's
starting byte offset (the stream position before the writes, here
the accumulated length) in the index.  The buffer contents and the
index are threaded as accumulators, exactly like the loop state. -/
def write_buffer (c : Codec) : List (Nat × Vector) → List Nat → List (Nat × Nat) → List Nat × List (Nat × Nat)
  | [], bytes, index => (bytes, index)
  | e :: rest, bytes, index =>
    write_buffer c rest (bytes ++ writeRecord c e.1 e.2) (btInsert index e.1 bytes.length)

/-- Outcome of a fallible read: `Ok`, a returned `io::Error`, or a
panic. -/
inductive ReadResult (α : Type) where
  | ok (a : α)
  | ioError
  | panicked
deriving DecidableEq

/-- `LSMTree::read_value_from_buffer`: decodes one record from the
start of a buffer; every failure — a short read or a
`bson::from_slice` error — is mapped to a returned error, modelled
as `none`. -/
def read_value_from_buffer (c : Codec) (buf : List Nat) : Option (Nat × Vector) :=
  if buf.length < 8 then none
  else
    if (buf.drop 8).length < 4 then none
    else
      if ((buf.drop 8).drop 4).length < fromLEBytes ((buf.drop 8).take 4) then none
      else
        match c.deser (((buf.drop 8).drop 4).take (fromLEBytes ((buf.drop 8).take 4))) with
        | some v => some (fromLEBytes (buf.take 8), v)
        | none => none

/-- `LSMTree::read_value_from_sstable`: decodes one record at a byte
offset of the mapped file.  Slicing the map at an offset past its
end panics; short reads of the key, the length, or the declared
value bytes surface as `Err` through the question-mark operator; a
`bson::from_slice` failure hits an `expect`, a panic. -/
def read_value_from_sstable (c : Codec) (mmap : List Nat) (offset : Nat) : ReadResult (Nat × Vector) :=
  if mmap.length < offset then .panicked
  else
    if (mmap.drop offset).length < 8 then .ioError
    else
      if ((mmap.drop offset).drop 8).length < 4 then .ioError
      else
        if (((mmap.drop offset).drop 8).drop 4).length < fromLEBytes (((mmap.drop offset).drop 8).take 4) then .ioError
        else
          match c.deser ((((mmap.drop offset).drop 8).drop 4).take (fromLEBytes (((mmap.drop offset).drop 8).take 4))) with
          | some v => .ok (fromLEBytes ((mmap.drop offset).take 8), v)
          | none => .panicked

/-- Outcome of `LSMTree::get`: `Some(value)`, `None`, or a panic
escaping from `read_value_from_sstable`. -/
inductive GetResult where
  | found (v : Vector)
  | absent
  | panicked
deriving DecidableEq

/-- The segment loop of `LSMTree::get`, already oriented newest
first (the code iterates `self.sstables.iter().rev()`): in every
step the tombstone check precedes the index check; a decoding
`Err` becomes `None`. -/
def scanSegs (c : Codec) (key : Nat) : List SSTable → GetResult
  | [] => .absent
  | s :: rest =>
    if key ∈ s.tombstones then .absent
    else
      match btLookup s.index key with
      | some offset =>
        match read_value_from_sstable c s.mmap offset with
        | .ok kv => .found kv.2
        | .ioError => .absent
        | .panicked => .panicked
      | none => scanSegs c key rest

/-- `LSMTree::get`: the memtable first, then the segment scan. -/
def LSMTree.get (c : Codec) (t : LSMTree) (key : Nat) : GetResult :=
  match btLookup t.memtable key with
  | some v => .found v
  | none => scanSegs c key t.sstables.reverse

/-- Outcome of `LSMTree::delete`: `Ok` or the not-found `Err`; both
carry the engine state after the call, since the code mutates
`self` in place. -/
inductive DelResult where
  | ok (t : LSMTree)
  | notFound (t : LSMTree)
deriving DecidableEq

/-- The mutable segment loop of `LSMTree::delete` (the code iterates
`self.sstables.iter_mut().rev()`): the newest segment whose index
holds the key receives the tombstone; `none` when no segment's index
holds it.  The newer suffix is inspected before the head, matching
the reversed iteration. -/
def tombstoneNewest (key : Nat) : List SSTable → Option (List SSTable)
  | [] => none
  | s :: rest =>
    match tombstoneNewest key rest with
    | some rest2 => some (s :: rest2)
    | none =>
      if (btLookup s.index key).isSome then
        some ({ s with tombstones := setInsert s.tombstones key } :: rest)
      else
        none

/-- `LSMTree::delete`: memtable removal first, else the tombstone
scan, else the not-found error. -/
def LSMTree.delete (t : LSMTree) (key : Nat) : DelResult :=
  if (btRemove t.memtable key).1.isSome then
    .ok { t with memtable := (btRemove t.memtable key).2 }
  else
    match tombstoneNewest key t.sstables with
    | some segs => .ok { t with memtable := (btRemove t.memtable key).2, sstables := segs }
    | none => .notFound { t with memtable := (btRemove t.memtable key).2 }

/-- Which fallible I/O steps of a flush fail: `OpenOptions::open`,
the record writes into the `BufWriter`, `writer.flush()`, and
`Mmap::map`. -/
structure FailEnv where
  openFails : Bool
  writeFails : Bool
  flushFails : Bool
  mapFails : Bool
deriving DecidableEq

/-- Outcome of a state-mutating engine call: `Ok` or `Err`, each
with the resulting state, or a process abort through a panic. -/
inductive OpResult where
  | ok (t : LSMTree)
  | ioError (t : LSMTree)
  | panicked
deriving DecidableEq

/-- `LSMTree::flush_memtable`.  `open` and `Mmap::map` failures are
returned with the question-mark operator, leaving the state as it
was; a failing record write (only reachable when the memtable is
nonempty, otherwise nothing is written) or a failing
`writer.flush()` hits an `expect`, a panic.  On success the new
segment — mapped bytes, index, empty tombstone set — is pushed at
the back of `sstables` and the memtable is cleared. -/
def flush_memtable (env : FailEnv) (c : Codec) (t : LSMTree) : OpResult :=
  if env.openFails = true then .ioError t
  else if env.writeFails = true ∧ t.memtable ≠ [] then .panicked
  else if env.flushFails = true then .panicked
  else if env.mapFails = true then .ioError t
  else
    .ok { t with
          sstables := t.sstables ++
            [{ mmap := (write_buffer c t.memtable [] []).1,
               index := (write_buffer c t.memtable [] []).2,
               tombstones := [] }],
          memtable := [] }

/-- `LSMTree::insert`: unconditional memtable insert, then one
synchronous flush when the memtable size reached `sstable_size`; a
flush failure propagates after the memtable was already updated. -/
def LSMTree.insert (env : FailEnv) (c : Codec) (t : LSMTree) (key : Nat) (v : Vector) : OpResult :=
  if t.sstable_size ≤ (btInsert t.memtable key v).length then
    flush_memtable env c { t with memtable := btInsert t.memtable key v }
  else
    .ok { t with memtable := btInsert t.memtable key v }

/-- States reachable from `LSMTree::new` by successful `insert` and
`delete` calls (`get` borrows the tree immutably and never changes
it). -/
inductive Reachable (c : Codec) : LSMTree → Prop
  | new : Reachable c LSMTree.new
  | insert_ok (env : FailEnv) (t t' : LSMTree) (key : Nat) (v : Vector) :
      Reachable c t → LSMTree.insert env c t key v = .ok t' → Reachable c t'
  | delete_ok (t t' : LSMTree) (key : Nat) :
      Reachable c t → LSMTree.delete t key = .ok t' → Reachable c t'

/-- Fixed-width chunk decoding used by the sample codec: reads `k`
8-byte little-endian numbers. -/
def chunksDec : Nat → List Nat → Option (List Nat × List Nat)
  | 0, bs => some ([], bs)
  | k + 1, bs =>
    if bs.length < 8 then none
    else
      match chunksDec k (bs.drop 8) with
      | some (ns, rest) => some (fromLEBytes (bs.take 8) :: ns, rest)
      | none => none

/-- Fixed-width encoding of a number list, 8 bytes each, used by the
sample codec. -/
def natsEnc : List Nat → List Nat
  | [] => []
  | n :: rest => toLEBytes 8 n ++ natsEnc rest

/-- An executable instance of the opaque codec: id, then the entry
count, then the entries, all as 8-byte little-endian numbers.  Used
only to instantiate the codec-parametric theorems on concrete
states. -/
def sampleCodec : Codec where
  ser := fun v => toLEBytes 8 v.id ++ toLEBytes 8 v.data.length ++ natsEnc v.data
  deser := fun bs =>
    if bs.length < 16 then none
    else
      match chunksDec (fromLEBytes ((bs.drop 8).take 8)) ((bs.drop 8).drop 8) with
      | some (ns, []) => some { id := fromLEBytes (bs.take 8), data := ns }
      | _ => none

/-- Concrete values and engine states used to instantiate the
theorems below. -/
def vA : Vector := { id := 1, data := [3, 4] }

def vB : Vector := { id := 2, data := [5] }

def vC : Vector := { id := 3, data := [] }

def envOk : FailEnv :=
  { openFails := false, writeFails := false, flushFails := false, mapFails := false }

def envWriteFail : FailEnv :=
  { openFails := false, writeFails := true, flushFails := false, mapFails := false }

def envOpenFail : FailEnv :=
  { openFails := true, writeFails := false, flushFails := false, mapFails := false }

def seg1 : SSTable :=
  { mmap := (write_buffer sampleCodec [(1, vA)] [] []).1,
    index := (write_buffer sampleCodec [(1, vA)] [] []).2,
    tombstones := [] }

def tree1 : LSMTree :=
  { memtable := [], sstables := [seg1], sstable_size := 10, max_open_sstables := 10 }

def tree2 : LSMTree :=
  { memtable := [(1, vA)], sstables := [], sstable_size := 10, max_open_sstables := 10 }

def m3 : List (Nat × Vector) := [(1, vA), (2, vB)]

def seg3a : SSTable :=
  { mmap := (write_buffer sampleCodec m3 [] []).1,
    index := (write_buffer sampleCodec m3 [] []).2,
    tombstones := [] }

def seg3b : SSTable :=
  { mmap := (write_buffer sampleCodec [(3, vC)] [] []).1,
    index := (write_buffer sampleCodec [(3, vC)] [] []).2,
    tombstones := [] }

def tree3 : LSMTree :=
  { memtable := [], sstables := [seg3a, seg3b], sstable_size := 10, max_open_sstables := 10 }

def tree4 : LSMTree :=
  { memtable := [(1, vA)], sstables := [], sstable_size := 10, max_open_sstables := 10 }

/-- A segment whose single indexed record carries a one-byte value
body that no codec document can deserialize from (too short for the
sample codec). -/
def seg5 : SSTable :=
  { mmap := toLEBytes 8 1 ++ toLEBytes 4 1 ++ [255], index := [(1, 0)], tombstones := [] }

def tree5 : LSMTree :=
  { memtable := [], sstables := [seg5], sstable_size := 10, max_open_sstables := 10 }

/-- A segment whose single indexed record declares 9 value bytes but
only has 1: a malformed length, a short read. -/
def seg5b : SSTable :=
  { mmap := toLEBytes 8 1 ++ toLEBytes 4 9 ++ [0], index := [(1, 0)], tombstones := [] }

def tree5b : LSMTree :=
  { memtable := [], sstables := [seg5b], sstable_size := 10, max_open_sstables := 10 }

def tree6 : LSMTree :=
  { memtable := [(1, vA)], sstables := [], sstable_size := 2, max_open_sstables := 10 }

def tree7 : LSMTree :=
  { memtable := [(1, vA), (2, vB)], sstables := [], sstable_size := 10, max_open_sstables := 10 }

def tree9 : LSMTree :=
  { memtable := [(2, vA)], sstables := [], sstable_size := 10, max_open_sstables := 10 }

def tree10 : LSMTree :=
  { memtable := [(5, vA)], sstables := [], sstable_size := 10, max_open_sstables := 10 }

/-- Concatenation of the records of a memtable in iteration order:
the byte image a successful flush writes. -/
def flatRecs (c : Codec) : List (Nat × Vector) → List Nat
  | [] => []
  | p :: rest => writeRecord c p.1 p.2 ++ flatRecs c rest

theorem toLEBytes_length (w n : Nat) : (toLEBytes w n).length = w := by
  induction w generalizing n with
  | zero => rfl
  | succ w ih => simp [toLEBytes, ih]

theorem fromLEBytes_toLEBytes (w n : Nat) : fromLEBytes (toLEBytes w n) = n % 256 ^ w := by
  induction w generalizing n with
  | zero => simp [toLEBytes, fromLEBytes, Nat.mod_one]
  | succ w ih =>
    have h : (256 : Nat) ^ (w + 1) = 256 * 256 ^ w := by ring
    rw [toLEBytes, fromLEBytes, ih, h, Nat.mod_mul]

theorem take_append_len {α : Type} (l1 l2 : List α) : (l1 ++ l2).take l1.length = l1 := by
  induction l1 with
  | nil => rfl
  | cons a l ih => simp [ih]

theorem drop_append_len {α : Type} (l1 l2 : List α) : (l1 ++ l2).drop l1.length = l2 := by
  induction l1 with
  | nil => rfl
  | cons a l ih => simp [ih]

theorem take_toLE (w n : Nat) (rest : List Nat) : (toLEBytes w n ++ rest).take w = toLEBytes w n := by
  have h := take_append_len (toLEBytes w n) rest
  rwa [toLEBytes_length] at h

theorem drop_toLE (w n : Nat) (rest : List Nat) : (toLEBytes w n ++ rest).drop w = rest := by
  have h := drop_append_len (toLEBytes w n) rest
  rwa [toLEBytes_length] at h

theorem btLookup_btInsert_self {α : Type} (m : List (Nat × α)) (key : Nat) (v : α) :
    btLookup (btInsert m key v) key = some v := by
  induction m with
  | nil => simp [btInsert, btLookup]
  | cons p rest ih =>
    by_cases h1 : key < p.1
    · simp [btInsert, btLookup, h1]
    · by_cases h2 : key = p.1
      · simp [btInsert, btLookup, h1, h2]
      · simp [btInsert, btLookup, h1, h2, ih]

theorem btLookup_btInsert_ne {α : Type} (m : List (Nat × α)) (key x : Nat) (v : α)
    (hne : x ≠ key) : btLookup (btInsert m key v) x = btLookup m x := by
  induction m with
  | nil => simp [btInsert, btLookup, hne]
  | cons p rest ih =>
    by_cases h1 : key < p.1
    · simp [btInsert, btLookup, h1, hne]
    · by_cases h2 : key = p.1
      · have hx : x ≠ p.1 := h2 ▸ hne
        simp [btInsert, btLookup, h1, h2, hx]
      · simp [btInsert, btLookup, h1, h2, ih]

theorem btLookup_btInsert_none {α : Type} (m : List (Nat × α)) (key x : Nat) (v : α) :
    btLookup (btInsert m key v) x = none ↔ x ≠ key ∧ btLookup m x = none := by
  by_cases h : x = key
  · subst h
    simp [btLookup_btInsert_self]
  · rw [btLookup_btInsert_ne m key x v h]
    simp [h]

theorem btLookup_eq_none_iff {α : Type} (m : List (Nat × α)) (x : Nat) :
    btLookup m x = none ↔ x ∉ m.map Prod.fst := by
  induction m with
  | nil => simp [btLookup]
  | cons p rest ih =>
    by_cases h : x = p.1
    · simp [btLookup, h]
    · simp [btLookup, h, ih]

theorem btRemove_fst {α : Type} (m : List (Nat × α)) (key : Nat) :
    (btRemove m key).1 = btLookup m key := by
  induction m with
  | nil => rfl
  | cons p rest ih =>
    by_cases h : key = p.1
    · simp [btRemove, btLookup, h]
    · simp [btRemove, btLookup, h, ih]

theorem btRemove_none {α : Type} (m : List (Nat × α)) (key : Nat)
    (h : (btRemove m key).1 = none) : (btRemove m key).2 = m := by
  induction m with
  | nil => rfl
  | cons p rest ih =>
    by_cases hk : key = p.1
    · simp [btRemove, hk] at h
    · simp only [btRemove, if_neg hk] at h ⊢
      rw [ih h]

theorem btRemove_length {α : Type} (m : List (Nat × α)) (key : Nat) :
    (btRemove m key).2.length ≤ m.length := by
  induction m with
  | nil => simp [btRemove]
  | cons p rest ih =>
    by_cases hk : key = p.1
    · simp [btRemove, hk]
    · simp only [btRemove, if_neg hk, List.length_cons]
      omega

theorem btRemove_not_mem {α : Type} (m : List (Nat × α)) (key : Nat)
    (hs : List.Pairwise (fun p q => p.1 < q.1) m) :
    key ∉ ((btRemove m key).2).map Prod.fst := by
  induction m with
  | nil => simp [btRemove]
  | cons p rest ih =>
    obtain ⟨hhead, htail⟩ := List.pairwise_cons.mp hs
    by_cases hk : key = p.1
    · simp only [btRemove, if_pos hk]
      intro hmem
      obtain ⟨q, hq, hq1⟩ := List.mem_map.mp hmem
      have := hhead q hq
      omega
    · simp only [btRemove, if_neg hk, List.map_cons, List.mem_cons]
      push_neg
      exact ⟨hk, ih htail⟩

theorem mem_setInsert (l : List Nat) (key x : Nat) :
    x ∈ setInsert l key ↔ x = key ∨ x ∈ l := by
  induction l with
  | nil => simp [setInsert]
  | cons k rest ih =>
    by_cases h1 : key < k
    · simp [setInsert, h1, List.mem_cons]
    · by_cases h2 : key = k
      · subst h2
        simp [setInsert, h1, List.mem_cons]
      · simp [setInsert, h1, h2, List.mem_cons, ih]
        tauto

theorem flatRecs_append (c : Codec) (l1 l2 : List (Nat × Vector)) :
    flatRecs c (l1 ++ l2) = flatRecs c l1 ++ flatRecs c l2 := by
  induction l1 with
  | nil => rfl
  | cons p rest ih => simp [flatRecs, ih]

theorem write_buffer_fst (c : Codec) (mem : List (Nat × Vector)) (bytes : List Nat)
    (idx : List (Nat × Nat)) :
    (write_buffer c mem bytes idx).1 = bytes ++ flatRecs c mem := by
  induction mem generalizing bytes idx with
  | nil => simp [write_buffer, flatRecs]
  | cons e rest ih =>
    simp only [write_buffer, flatRecs]
    rw [ih, List.append_assoc]

theorem write_buffer_snd_not_mem (c : Codec) (mem : List (Nat × Vector)) (bytes : List Nat)
    (idx : List (Nat × Nat)) (x : Nat) (hx : x ∉ mem.map Prod.fst) :
    btLookup (write_buffer c mem bytes idx).2 x = btLookup idx x := by
  induction mem generalizing bytes idx with
  | nil => rfl
  | cons e rest ih =>
    simp only [List.map_cons, List.mem_cons] at hx
    push_neg at hx
    simp only [write_buffer]
    rw [ih _ _ hx.2, btLookup_btInsert_ne _ _ _ _ hx.1]

theorem write_buffer_snd_lookup (c : Codec) (pre post : List (Nat × Vector)) (k : Nat)
    (v : Vector) (bytes : List Nat) (idx : List (Nat × Nat))
    (hs : List.Pairwise (fun p q => p.1 < q.1) (pre ++ (k, v) :: post)) :
    btLookup (write_buffer c (pre ++ (k, v) :: post) bytes idx).2 k
      = some (bytes.length + (flatRecs c pre).length) := by
  induction pre generalizing bytes idx with
  | nil =>
    rw [List.nil_append] at hs
    obtain ⟨hhead, htail⟩ := List.pairwise_cons.mp hs
    have hkpost : k ∉ post.map Prod.fst := by
      intro hmem
      obtain ⟨q, hq, hq1⟩ := List.mem_map.mp hmem
      have := hhead q hq
      omega
    simp only [List.nil_append, write_buffer]
    rw [write_buffer_snd_not_mem c post _ _ k hkpost]
    rw [btLookup_btInsert_self]
    simp [flatRecs]
  | cons e pre2 ih =>
    rw [List.cons_append] at hs
    obtain ⟨hhead, htail⟩ := List.pairwise_cons.mp hs
    simp only [List.cons_append, write_buffer, List.append_eq]
    rw [ih _ _ htail]
    simp only [List.length_append, flatRecs, Option.some.injEq]
    omega

theorem write_buffer_snd_none_iff (c : Codec) (mem : List (Nat × Vector)) (bytes : List Nat)
    (idx : List (Nat × Nat)) (x : Nat) :
    btLookup (write_buffer c mem bytes idx).2 x = none ↔
      x ∉ mem.map Prod.fst ∧ btLookup idx x = none := by
  induction mem generalizing bytes idx with
  | nil => simp [write_buffer]
  | cons e rest ih =>
    simp only [write_buffer]
    rw [ih, btLookup_btInsert_none]
    simp only [List.map_cons, List.mem_cons]
    tauto

theorem read_record_at (c : Codec) (pre post : List Nat) (key : Nat) (v : Vector)
    (hk : key < 2 ^ 64) (hl : (c.ser v).length < 2 ^ 32)
    (hrt : c.deser (c.ser v) = some v) :
    read_value_from_sstable c (pre ++ writeRecord c key v ++ post) pre.length = .ok (key, v) := by
  have h2568 : (256 : Nat) ^ 8 = 2 ^ 64 := by norm_num
  have h2564 : (256 : Nat) ^ 4 = 2 ^ 32 := by norm_num
  have hmk : key % 256 ^ 8 = key := Nat.mod_eq_of_lt (by rw [h2568]; exact hk)
  have hml : (c.ser v).length % 256 ^ 4 = (c.ser v).length :=
    Nat.mod_eq_of_lt (by rw [h2564]; exact hl)
  have hcur : (pre ++ writeRecord c key v ++ post).drop pre.length
      = toLEBytes 8 key ++ (toLEBytes 4 (c.ser v).length ++ (c.ser v ++ post)) := by
    rw [List.append_assoc, drop_append_len]
    simp [writeRecord, List.append_assoc]
  have hguard : ¬ ((pre ++ writeRecord c key v ++ post).length < pre.length) := by
    simp [List.length_append]
  have hc1 : ¬ ((toLEBytes 8 key ++ (toLEBytes 4 (c.ser v).length ++ (c.ser v ++ post))).length < 8) := by
    simp [List.length_append, toLEBytes_length]
  have hc2 : ¬ ((toLEBytes 4 (c.ser v).length ++ (c.ser v ++ post)).length < 4) := by
    simp [List.length_append, toLEBytes_length]
  have hc3 : ¬ ((c.ser v ++ post).length < (c.ser v).length) := by
    simp [List.length_append]
  unfold read_value_from_sstable
  rw [if_neg hguard, hcur]
  simp only [drop_toLE, take_toLE, fromLEBytes_toLEBytes, hmk, hml]
  rw [if_neg hc1, if_neg hc2, if_neg hc3, take_append_len, hrt]

theorem read_buffer_record (c : Codec) (key : Nat) (v : Vector)
    (hk : key < 2 ^ 64) (hl : (c.ser v).length < 2 ^ 32)
    (hrt : c.deser (c.ser v) = some v) :
    read_value_from_buffer c (writeRecord c key v) = some (key, v) := by
  have h2568 : (256 : Nat) ^ 8 = 2 ^ 64 := by norm_num
  have h2564 : (256 : Nat) ^ 4 = 2 ^ 32 := by norm_num
  have hmk : key % 256 ^ 8 = key := Nat.mod_eq_of_lt (by rw [h2568]; exact hk)
  have hml : (c.ser v).length % 256 ^ 4 = (c.ser v).length :=
    Nat.mod_eq_of_lt (by rw [h2564]; exact hl)
  have hw : writeRecord c key v
      = toLEBytes 8 key ++ (toLEBytes 4 (c.ser v).length ++ c.ser v) := by
    simp [writeRecord, List.append_assoc]
  have hc1 : ¬ ((toLEBytes 8 key ++ (toLEBytes 4 (c.ser v).length ++ c.ser v)).length < 8) := by
    simp [List.length_append, toLEBytes_length]
  have hc2 : ¬ ((toLEBytes 4 (c.ser v).length ++ c.ser v).length < 4) := by
    simp [List.length_append, toLEBytes_length]
  have hc3 : ¬ ((c.ser v).length < (c.ser v).length) := by
    simp
  unfold read_value_from_buffer
  rw [hw]
  simp only [drop_toLE, take_toLE, fromLEBytes_toLEBytes, hmk, hml]
  rw [if_neg hc1, if_neg hc2, if_neg hc3, List.take_length, hrt]

theorem scanSegs_append_of_miss (c : Codec) (key : Nat) (l1 l2 : List SSTable)
    (h : ∀ s ∈ l1, key ∉ s.tombstones ∧ btLookup s.index key = none) :
    scanSegs c key (l1 ++ l2) = scanSegs c key l2 := by
  induction l1 with
  | nil => rfl
  | cons s rest ih =>
    obtain ⟨h1, h2⟩ := h s (List.mem_cons_self s rest)
    rw [List.cons_append, scanSegs, if_neg h1, h2]
    exact ih (fun s2 hs2 => h s2 (List.mem_cons_of_mem s hs2))

theorem scanSegs_all_miss (c : Codec) (key : Nat) (l : List SSTable)
    (h : ∀ s ∈ l, key ∉ s.tombstones ∧ btLookup s.index key = none) :
    scanSegs c key l = .absent := by
  have h2 := scanSegs_append_of_miss c key l [] h
  rw [List.append_nil] at h2
  rw [h2]
  rfl

theorem reverse_decomp {α : Type} (pre : List α) (s : α) (post : List α) :
    (pre ++ s :: post).reverse = post.reverse ++ s :: pre.reverse := by
  simp [List.reverse_append]

theorem tombstoneNewest_none_iff (key : Nat) (l : List SSTable) :
    tombstoneNewest key l = none ↔ ∀ s ∈ l, btLookup s.index key = none := by
  induction l with
  | nil => simp [tombstoneNewest]
  | cons s rest ih =>
    rw [tombstoneNewest]
    cases h : tombstoneNewest key rest with
    | some r2 =>
      simp only [h]
      constructor
      · intro hfalse
        cases hfalse
      · intro hall
        have h2 : tombstoneNewest key rest = none :=
          ih.mpr (fun s2 hs2 => hall s2 (List.mem_cons_of_mem s hs2))
        rw [h] at h2
        cases h2
    | none =>
      simp only [h]
      by_cases hidx : (btLookup s.index key).isSome
      · rw [if_pos hidx]
        constructor
        · intro hfalse
          cases hfalse
        · intro hall
          have h2 := hall s (List.mem_cons_self s rest)
          rw [h2] at hidx
          simp at hidx
      · rw [if_neg hidx]
        constructor
        · intro _ s2 hs2
          rcases List.mem_cons.mp hs2 with h2 | h2
          · subst h2
            exact Option.not_isSome_iff_eq_none.mp hidx
          · exact (ih.mp h) s2 h2
        · intro _
          rfl

theorem tombstoneNewest_eq (key : Nat) (pre post : List SSTable) (s : SSTable) (off : Nat)
    (hpost : ∀ s2 ∈ post, btLookup s2.index key = none)
    (hs : btLookup s.index key = some off) :
    tombstoneNewest key (pre ++ s :: post)
      = some (pre ++ { s with tombstones := setInsert s.tombstones key } :: post) := by
  induction pre with
  | nil =>
    have hpn : tombstoneNewest key post = none := (tombstoneNewest_none_iff key post).mpr hpost
    rw [List.nil_append, tombstoneNewest, hpn]
    have hidx : (btLookup s.index key).isSome := by
      rw [hs]
      rfl
    rw [if_pos hidx, List.nil_append]
  | cons s0 pre2 ih =>
    rw [List.cons_append, tombstoneNewest, ih, List.cons_append]

/-- C1: `get` checks the memtable first and returns its value when
present; otherwise it scans segments strictly newest-to-oldest (the
newest is the last element of `sstables`), at each segment checking
the tombstone set before the index: a tombstoned key yields absent
immediately, no matter what older segments hold; otherwise an
indexed key yields the value decoded from the record at the indexed
offset; and when no segment matches, the result is absent. -/
theorem c1_get_resolution (c : Codec) (t : LSMTree) (key : Nat) :
    (∀ v, btLookup t.memtable key = some v → LSMTree.get c t key = .found v) ∧
    (btLookup t.memtable key = none →
      ((∀ s ∈ t.sstables, key ∉ s.tombstones ∧ btLookup s.index key = none) →
          LSMTree.get c t key = .absent) ∧
      (∀ pre s post, t.sstables = pre ++ s :: post →
        (∀ s2 ∈ post, key ∉ s2.tombstones ∧ btLookup s2.index key = none) →
        ((key ∈ s.tombstones → LSMTree.get c t key = .absent) ∧
         (key ∉ s.tombstones → ∀ off k2 v, btLookup s.index key = some off →
            read_value_from_sstable c s.mmap off = .ok (k2, v) →
            LSMTree.get c t key = .found v)))) := by
  constructor
  · intro v hv
    simp only [LSMTree.get, hv]
  · intro hm
    have hget : LSMTree.get c t key = scanSegs c key t.sstables.reverse := by
      simp only [LSMTree.get, hm]
    constructor
    · intro hall
      rw [hget]
      exact scanSegs_all_miss c key _ (fun s hs => hall s (List.mem_reverse.mp hs))
    · intro pre s post hdec hpost
      have hskip : LSMTree.get c t key = scanSegs c key (s :: pre.reverse) := by
        rw [hget, hdec, reverse_decomp]
        exact scanSegs_append_of_miss c key _ _
          (fun s2 hs2 => hpost s2 (List.mem_reverse.mp hs2))
      constructor
      · intro htomb
        rw [hskip, scanSegs, if_pos htomb]
      · intro htomb off k2 v hidx hread
        rw [hskip, scanSegs, if_neg htomb, hidx]
        simp only [hread]

/-- Witness for C1 on a concrete engine state whose single segment
indexes the key. -/
theorem c1_get_resolution_witness :
    LSMTree.get sampleCodec tree1 1 = GetResult.found vA := by
  have h := (c1_get_resolution sampleCodec tree1 1).2 (by decide)
  exact (h.2 [] seg1 [] rfl (by intro s2 hs2; cases hs2)).2 (by decide) 0 1 vA
    (by decide) (by decide)

/-- C6: `insert` writes into the memtable, overwriting any previous
value of the key; exactly when the updated memtable size has reached
`sstable_size` it performs one synchronous flush of that state
before returning, and otherwise it performs none. -/
theorem c6_insert_flush_trigger (env : FailEnv) (c : Codec) (t : LSMTree) (key : Nat)
    (v : Vector) :
    btLookup (btInsert t.memtable key v) key = some v ∧
    ((btInsert t.memtable key v).length < t.sstable_size →
      LSMTree.insert env c t key v = .ok { t with memtable := btInsert t.memtable key v }) ∧
    (t.sstable_size ≤ (btInsert t.memtable key v).length →
      LSMTree.insert env c t key v
        = flush_memtable env c { t with memtable := btInsert t.memtable key v }) := by
  refine ⟨btLookup_btInsert_self t.memtable key v, ?_, ?_⟩
  · intro h
    unfold LSMTree.insert
    rw [if_neg (Nat.not_le.mpr h)]
  · intro h
    unfold LSMTree.insert
    rw [if_pos h]

/-- Witness for C6 at a threshold-crossing insert. -/
theorem c6_insert_flush_trigger_witness :
    LSMTree.insert envOk sampleCodec tree6 2 vB
      = flush_memtable envOk sampleCodec { tree6 with memtable := btInsert tree6.memtable 2 vB } :=
  (c6_insert_flush_trigger envOk sampleCodec tree6 2 vB).2.2 (by decide)

/-- C8: encoding a key and a value as a record — the key as 8
little-endian bytes, the serialized length as 4 little-endian bytes,
then the serialized value, exactly the bytes `write_buffer` emits
for one entry — and then decoding from the start of those bytes
returns the original key and value.  The hypotheses on the
serialized form are the contract of the opaque codec: a bson
document always fits a 32-bit length and round-trips through
serialization; the key bound is the u64 value range. -/
theorem c8_record_roundtrip (c : Codec) (key : Nat) (v : Vector)
    (hk : key < 2 ^ 64) (hl : (c.ser v).length < 2 ^ 32)
    (hrt : c.deser (c.ser v) = some v) :
    read_value_from_buffer c (writeRecord c key v) = some (key, v) ∧
    (write_buffer c [(key, v)] [] []).1 = writeRecord c key v := by
  constructor
  · exact read_buffer_record c key v hk hl hrt
  · simp [write_buffer]

/-- Witness for C8 at a concrete key and value under the sample
codec. -/
theorem c8_record_roundtrip_witness :
    read_value_from_buffer sampleCodec (writeRecord sampleCodec 1 vA) = some (1, vA) :=
  (c8_record_roundtrip sampleCodec 1 vA (by decide) (by decide) (by decide)).1

/-- C9: a not-found `delete` leaves the engine state exactly as it
was: the memtable, the segment list, and every segment's index and
tombstone set. -/
theorem c9_delete_notfound_id (t : LSMTree) (key : Nat) (t2 : LSMTree)
    (h : LSMTree.delete t key = .notFound t2) : t2 = t := by
  unfold LSMTree.delete at h
  by_cases hr : (btRemove t.memtable key).1.isSome
  · rw [if_pos hr] at h
    cases h
  · rw [if_neg hr] at h
    cases htn : tombstoneNewest key t.sstables with
    | some segs =>
      rw [htn] at h
      cases h
    | none =>
      rw [htn] at h
      have hm2 : (btRemove t.memtable key).2 = t.memtable :=
        btRemove_none t.memtable key (Option.not_isSome_iff_eq_none.mp hr)
      injection h with h2
      rw [← h2, hm2]

/-- Witness for C9 on a concrete nonempty state. -/
theorem c9_delete_notfound_id_witness :
    LSMTree.delete tree9 5 = DelResult.notFound tree9 ∧ tree9 = tree9 :=
  ⟨by decide, c9_delete_notfound_id tree9 5 tree9 (by decide)⟩

/-- C2: `delete` removes the key from the memtable and succeeds
when the key is present there, touching no tombstone anywhere, so a
following successful flush yields a segment with neither an entry
nor a tombstone for that key; otherwise the newest segment whose
index holds the key receives the tombstone and the call succeeds;
and the call fails with not-found exactly when the key is in neither
the memtable nor any segment's index. -/
theorem c2_delete_semantics (env : FailEnv) (c : Codec) (t : LSMTree) (key : Nat)
    (hsort : List.Pairwise (fun p q => p.1 < q.1) t.memtable) :
    (∀ v, btLookup t.memtable key = some v →
      LSMTree.delete t key = .ok { t with memtable := (btRemove t.memtable key).2 } ∧
      btLookup (btRemove t.memtable key).2 key = none ∧
      (∀ t2, flush_memtable env c { t with memtable := (btRemove t.memtable key).2 } = .ok t2 →
        ∃ seg, t2.sstables = t.sstables ++ [seg] ∧ btLookup seg.index key = none ∧
          seg.tombstones = [])) ∧
    (btLookup t.memtable key = none →
      (∀ pre s post off, t.sstables = pre ++ s :: post →
        (∀ s2 ∈ post, btLookup s2.index key = none) →
        btLookup s.index key = some off →
        LSMTree.delete t key
          = .ok { t with
                  sstables := pre ++ { s with tombstones := setInsert s.tombstones key } :: post }) ∧
      ((∀ s ∈ t.sstables, btLookup s.index key = none) →
        LSMTree.delete t key = .notFound t)) := by
  constructor
  · intro v hv
    have hfst : (btRemove t.memtable key).1 = some v := by
      rw [btRemove_fst]
      exact hv
    have hIs : (btRemove t.memtable key).1.isSome := by
      rw [hfst]
      rfl
    have hnm : key ∉ ((btRemove t.memtable key).2).map Prod.fst :=
      btRemove_not_mem t.memtable key hsort
    refine ⟨?_, ?_, ?_⟩
    · unfold LSMTree.delete
      rw [if_pos hIs]
    · exact (btLookup_eq_none_iff _ _).mpr hnm
    · intro t2 hflush
      unfold flush_memtable at hflush
      split_ifs at hflush with h1 h2 h3 h4
      cases hflush
      exact ⟨{ mmap := (write_buffer c (btRemove t.memtable key).2 [] []).1,
               index := (write_buffer c (btRemove t.memtable key).2 [] []).2,
               tombstones := [] },
        rfl, (write_buffer_snd_none_iff c _ [] [] key).mpr ⟨hnm, rfl⟩, rfl⟩
  · intro hm
    have hfst : (btRemove t.memtable key).1 = none := by
      rw [btRemove_fst]
      exact hm
    have hm2 : (btRemove t.memtable key).2 = t.memtable := btRemove_none t.memtable key hfst
    have hns : ¬ (btRemove t.memtable key).1.isSome := by
      rw [hfst]
      simp
    constructor
    · intro pre s post off hdec hpost hsidx
      have htn : tombstoneNewest key t.sstables
          = some (pre ++ { s with tombstones := setInsert s.tombstones key } :: post) := by
        rw [hdec]
        exact tombstoneNewest_eq key pre post s off hpost hsidx
      unfold LSMTree.delete
      rw [if_neg hns, htn, hm2]
    · intro hall
      have htn : tombstoneNewest key t.sstables = none :=
        (tombstoneNewest_none_iff key t.sstables).mpr hall
      unfold LSMTree.delete
      rw [if_neg hns, htn, hm2]

/-- Witness for C2 at a delete-before-flush on a concrete state. -/
theorem c2_delete_semantics_witness :
    LSMTree.delete tree2 1 = DelResult.ok { tree2 with memtable := (btRemove tree2.memtable 1).2 } :=
  ((c2_delete_semantics envOk sampleCodec tree2 1 (by decide)).1 vA (by decide)).1

/-- C4 (amended): any failing I/O step during a flush keeps the
engine state: the flush never succeeds, never clears the memtable,
and never registers a segment.  File-creation and mapping failures
are returned to the caller as errors with the state unchanged, but
record-write and buffer-flush failures abort the process through a
panic instead of being returned as errors. -/
theorem c4_flush_failure (env : FailEnv) (c : Codec) (t : LSMTree)
    (hfail : env.openFails = true ∨ (env.writeFails = true ∧ t.memtable ≠ []) ∨
      env.flushFails = true ∨ env.mapFails = true) :
    (flush_memtable env c t = .ioError t ∨ flush_memtable env c t = .panicked) ∧
    (∀ t2, flush_memtable env c t ≠ .ok t2) ∧
    (env.openFails = true → flush_memtable env c t = .ioError t) ∧
    (env.openFails = false → env.writeFails = true → t.memtable ≠ [] →
      flush_memtable env c t = .panicked) ∧
    (env.openFails = false → (env.writeFails = false ∨ t.memtable = []) →
      env.flushFails = true → flush_memtable env c t = .panicked) ∧
    (env.openFails = false → (env.writeFails = false ∨ t.memtable = []) →
      env.flushFails = false → env.mapFails = true → flush_memtable env c t = .ioError t) := by
  obtain ⟨o, w, f, m⟩ := env
  by_cases hmem : t.memtable = [] <;>
    cases o <;> cases w <;> cases f <;> cases m <;>
      simp_all [flush_memtable]

/-- C4 counterexample: with a nonempty memtable and a failing record
write, the flush aborts through a panic; the failure is not returned
to the caller as an error. -/
theorem c4_flush_failure_counterexample :
    flush_memtable envWriteFail sampleCodec tree4 = OpResult.panicked ∧
    OpResult.panicked ≠ OpResult.ioError tree4 :=
  ⟨by decide, by decide⟩

/-- Witness for C4 at a failing file creation. -/
theorem c4_flush_failure_witness :
    flush_memtable envOpenFail sampleCodec tree4 = OpResult.ioError tree4 :=
  (c4_flush_failure envOpenFail sampleCodec tree4 (Or.inl rfl)).2.2.1 rfl

/-- C5 (amended): a failure to read the record header or the
declared value bytes at a segment's indexed offset — in particular a
declared length running past the end of the mapped bytes — makes
`get` return absent, indistinguishable from a truly absent key; but
a value body that is fully read and then fails to deserialize makes
`get` abort through a panic rather than return absent. -/
theorem c5_decode_failure (c : Codec) (t : LSMTree) (key : Nat) :
    (btLookup t.memtable key = none →
      ∀ pre s post off, t.sstables = pre ++ s :: post →
        (∀ s2 ∈ post, key ∉ s2.tombstones ∧ btLookup s2.index key = none) →
        key ∉ s.tombstones → btLookup s.index key = some off →
        ((read_value_from_sstable c s.mmap off = .ioError →
            LSMTree.get c t key = .absent) ∧
         (read_value_from_sstable c s.mmap off = .panicked →
            LSMTree.get c t key = .panicked))) ∧
    (∀ mm off, off + 12 ≤ mm.length →
      mm.length < off + 12 + fromLEBytes (((mm.drop off).drop 8).take 4) →
      read_value_from_sstable c mm off = .ioError) := by
  constructor
  · intro hm pre s post off hdec hpost htomb hidx
    have hget : LSMTree.get c t key = scanSegs c key (s :: pre.reverse) := by
      simp only [LSMTree.get, hm]
      rw [hdec, reverse_decomp]
      exact scanSegs_append_of_miss c key _ _
        (fun s2 hs2 => hpost s2 (List.mem_reverse.mp hs2))
    constructor
    · intro hread
      rw [hget, scanSegs, if_neg htomb, hidx]
      simp only [hread]
    · intro hread
      rw [hget, scanSegs, if_neg htomb, hidx]
      simp only [hread]
  · intro mm off h1 h2
    have hg : ¬ (mm.length < off) := by omega
    have hl8 : ¬ ((mm.drop off).length < 8) := by
      rw [List.length_drop]
      omega
    have hl4 : ¬ (((mm.drop off).drop 8).length < 4) := by
      rw [List.length_drop, List.length_drop]
      omega
    have hlL : (((mm.drop off).drop 8).drop 4).length
        < fromLEBytes (((mm.drop off).drop 8).take 4) := by
      rw [List.length_drop, List.length_drop, List.length_drop]
      omega
    unfold read_value_from_sstable
    rw [if_neg hg, if_neg hl8, if_neg hl4, if_pos hlL]

/-- C5 counterexample: a record whose value body fails to
deserialize makes `get` panic instead of returning absent. -/
theorem c5_decode_failure_counterexample :
    LSMTree.get sampleCodec tree5 1 = GetResult.panicked ∧
    GetResult.panicked ≠ GetResult.absent :=
  ⟨by decide, by decide⟩

/-- Witness for C5 at a record with a malformed declared length. -/
theorem c5_decode_failure_witness :
    LSMTree.get sampleCodec tree5b 1 = GetResult.absent := by
  have h := (c5_decode_failure sampleCodec tree5b 1).1 (by decide) [] seg5b [] 0 rfl
    (by intro s2 hs2; cases hs2) (by decide) (by decide)
  exact h.1 (by decide)

theorem get_eq_scan (c : Codec) (t : LSMTree) (key : Nat)
    (hm : btLookup t.memtable key = none) :
    LSMTree.get c t key = scanSegs c key t.sstables.reverse := by
  simp only [LSMTree.get, hm]

theorem scanSegs_cons_tomb (c : Codec) (key : Nat) (s : SSTable) (rest : List SSTable)
    (h : key ∈ s.tombstones) : scanSegs c key (s :: rest) = .absent := by
  rw [scanSegs, if_pos h]

theorem scanSegs_cons_skip (c : Codec) (key : Nat) (s : SSTable) (rest : List SSTable)
    (h1 : key ∉ s.tombstones) (h2 : btLookup s.index key = none) :
    scanSegs c key (s :: rest) = scanSegs c key rest := by
  rw [scanSegs, if_neg h1]
  simp only [h2]

theorem scanSegs_cons_hit (c : Codec) (key : Nat) (s : SSTable) (rest : List SSTable)
    (off k2 : Nat) (v : Vector) (h1 : key ∉ s.tombstones)
    (h2 : btLookup s.index key = some off)
    (h3 : read_value_from_sstable c s.mmap off = .ok (k2, v)) :
    scanSegs c key (s :: rest) = .found v := by
  rw [scanSegs, if_neg h1, h2]
  simp only [h3]

/-- C7: a successful flush writes the memtable's records in
memtable iteration (ascending key) order as the new file image,
builds an index sending every written key to the byte offset where
that key's record starts, attaches an empty tombstone set, appends
the segment at the back of the segment list (the newest position),
and clears the memtable. -/
theorem c7_flush_builds_segment (env : FailEnv) (c : Codec) (t : LSMTree)
    (ho : env.openFails = false) (hw : env.writeFails = false)
    (hf : env.flushFails = false) (hm : env.mapFails = false)
    (hsort : List.Pairwise (fun p q => p.1 < q.1) t.memtable) :
    ∃ seg, flush_memtable env c t
        = .ok { t with memtable := [], sstables := t.sstables ++ [seg] } ∧
      seg.tombstones = [] ∧
      seg.mmap = flatRecs c t.memtable ∧
      (∀ k v, (k, v) ∈ t.memtable →
        ∃ off rest, btLookup seg.index k = some off ∧
          seg.mmap.drop off = writeRecord c k v ++ rest) ∧
      (∀ k, btLookup seg.index k ≠ none → k ∈ t.memtable.map Prod.fst) := by
  refine ⟨{ mmap := (write_buffer c t.memtable [] []).1,
            index := (write_buffer c t.memtable [] []).2,
            tombstones := [] }, ?_, rfl, ?_, ?_, ?_⟩
  · unfold flush_memtable
    rw [if_neg (by simp [ho]), if_neg (by simp [hw]), if_neg (by simp [hf]),
      if_neg (by simp [hm])]
  · rw [write_buffer_fst, List.nil_append]
  · intro k v hkv
    obtain ⟨pre, post, hdec⟩ := List.append_of_mem hkv
    refine ⟨(flatRecs c pre).length, flatRecs c post, ?_, ?_⟩
    · rw [hdec]
      have h2 := write_buffer_snd_lookup c pre post k v [] [] (hdec ▸ hsort)
      simpa using h2
    · rw [write_buffer_fst, List.nil_append, hdec, flatRecs_append]
      have h3 : flatRecs c ((k, v) :: post) = writeRecord c k v ++ flatRecs c post := rfl
      rw [h3]
      exact drop_append_len _ _
  · intro k hk
    by_contra hmem
    exact hk ((write_buffer_snd_none_iff c t.memtable [] [] k).mpr ⟨hmem, rfl⟩)

/-- Witness for C7 on a concrete two-entry memtable. -/
theorem c7_flush_builds_segment_witness :
    ∃ seg, flush_memtable envOk sampleCodec tree7
        = OpResult.ok { tree7 with memtable := [], sstables := tree7.sstables ++ [seg] } ∧
      seg.tombstones = [] ∧ seg.mmap = flatRecs sampleCodec tree7.memtable := by
  obtain ⟨seg, h1, h2, h3, h4, h5⟩ :=
    c7_flush_builds_segment envOk sampleCodec tree7 rfl rfl rfl rfl (by decide)
  exact ⟨seg, h1, h2, h3⟩

/-- C3: with an older segment holding the flushed record of key `k`
and a newer segment that neither indexes nor tombstones `k`,
deleting `k` succeeds (tombstoning the older segment), after which
`get k` is absent although the record of `k` is still present and
decodable inside the older segment, while other keys of the older
segment stay retrievable with their original values. -/
theorem c3_tombstone_shadows (c : Codec) (t : LSMTree) (k : Nat) (v : Vector)
    (m0 : List (Nat × Vector)) (s0 s1 : SSTable)
    (hsegs : t.sstables = [s0, s1])
    (hmem : btLookup t.memtable k = none)
    (hs0m : s0.mmap = (write_buffer c m0 [] []).1)
    (hs0i : s0.index = (write_buffer c m0 [] []).2)
    (hs0t : s0.tombstones = [])
    (hsort : List.Pairwise (fun p q => p.1 < q.1) m0)
    (hkv : (k, v) ∈ m0)
    (hk64 : k < 2 ^ 64) (hlv : (c.ser v).length < 2 ^ 32)
    (hrt : c.deser (c.ser v) = some v)
    (hs1i : btLookup s1.index k = none)
    (hs1t : k ∉ s1.tombstones) :
    ∃ t2, LSMTree.delete t k = .ok t2 ∧
      LSMTree.get c t2 k = .absent ∧
      (∃ off, btLookup s0.index k = some off ∧
        read_value_from_sstable c s0.mmap off = .ok (k, v)) ∧
      (∀ k2 v2, (k2, v2) ∈ m0 → k2 ≠ k →
        btLookup t.memtable k2 = none →
        btLookup s1.index k2 = none → k2 ∉ s1.tombstones →
        k2 < 2 ^ 64 → (c.ser v2).length < 2 ^ 32 →
        c.deser (c.ser v2) = some v2 →
        LSMTree.get c t2 k2 = .found v2) := by
  obtain ⟨pre, post, hdec⟩ := List.append_of_mem hkv
  have hidx : btLookup s0.index k = some (flatRecs c pre).length := by
    rw [hs0i, hdec]
    have h2 := write_buffer_snd_lookup c pre post k v [] [] (hdec ▸ hsort)
    simpa using h2
  have hread : read_value_from_sstable c s0.mmap (flatRecs c pre).length = .ok (k, v) := by
    rw [hs0m, write_buffer_fst, List.nil_append, hdec, flatRecs_append]
    have h3 : flatRecs c ((k, v) :: post) = writeRecord c k v ++ flatRecs c post := rfl
    rw [h3, ← List.append_assoc]
    exact read_record_at c (flatRecs c pre) (flatRecs c post) k v hk64 hlv hrt
  have hfst : (btRemove t.memtable k).1 = none := by
    rw [btRemove_fst]
    exact hmem
  have hm2 : (btRemove t.memtable k).2 = t.memtable := btRemove_none t.memtable k hfst
  have hns : ¬ (btRemove t.memtable k).1.isSome := by
    rw [hfst]
    simp
  have htn : tombstoneNewest k t.sstables
      = some [{ s0 with tombstones := setInsert s0.tombstones k }, s1] := by
    rw [hsegs]
    have h4 := tombstoneNewest_eq k [] [s1] s0 (flatRecs c pre).length
      (by intro s2 hs2; rw [List.mem_singleton.mp hs2]; exact hs1i) hidx
    simpa using h4
  have hdel : LSMTree.delete t k
      = .ok { t with
              sstables := [{ s0 with tombstones := setInsert s0.tombstones k }, s1] } := by
    unfold LSMTree.delete
    rw [if_neg hns, htn, hm2]
  refine ⟨_, hdel, ?_, ⟨_, hidx, hread⟩, ?_⟩
  · refine (get_eq_scan c
      { t with sstables := [{ s0 with tombstones := setInsert s0.tombstones k }, s1] }
      k hmem).trans ?_
    show scanSegs c k [s1, { s0 with tombstones := setInsert s0.tombstones k }]
      = GetResult.absent
    rw [scanSegs_cons_skip c k s1 _ hs1t hs1i]
    exact scanSegs_cons_tomb c k _ _ ((mem_setInsert s0.tombstones k k).mpr (Or.inl rfl))
  · intro k2 v2 hkv2 hne hmem2 hs1i2 hs1t2 hk64b hlvb hrtb
    obtain ⟨pre2, post2, hdec2⟩ := List.append_of_mem hkv2
    have hidx2 : btLookup s0.index k2 = some (flatRecs c pre2).length := by
      rw [hs0i, hdec2]
      have h2 := write_buffer_snd_lookup c pre2 post2 k2 v2 [] [] (hdec2 ▸ hsort)
      simpa using h2
    have hread2 : read_value_from_sstable c s0.mmap (flatRecs c pre2).length
        = .ok (k2, v2) := by
      rw [hs0m, write_buffer_fst, List.nil_append, hdec2, flatRecs_append]
      have h3 : flatRecs c ((k2, v2) :: post2) = writeRecord c k2 v2 ++ flatRecs c post2 := rfl
      rw [h3, ← List.append_assoc]
      exact read_record_at c (flatRecs c pre2) (flatRecs c post2) k2 v2 hk64b hlvb hrtb
    have hnt : k2 ∉ setInsert s0.tombstones k := by
      rw [hs0t]
      intro hcon
      rcases (mem_setInsert [] k k2).mp hcon with h | h
      · exact hne h
      · cases h
    refine (get_eq_scan c
      { t with sstables := [{ s0 with tombstones := setInsert s0.tombstones k }, s1] }
      k2 hmem2).trans ?_
    show scanSegs c k2 [s1, { s0 with tombstones := setInsert s0.tombstones k }]
      = GetResult.found v2
    rw [scanSegs_cons_skip c k2 s1 _ hs1t2 hs1i2]
    exact scanSegs_cons_hit c k2 _ _ _ k2 v2 hnt hidx2 hread2

/-- Witness for C3 on a concrete two-segment state. -/
theorem c3_tombstone_shadows_witness :
    ∃ t2, LSMTree.delete tree3 1 = DelResult.ok t2 ∧
      LSMTree.get sampleCodec t2 1 = GetResult.absent := by
  obtain ⟨t2, h1, h2, h3, h4⟩ :=
    c3_tombstone_shadows sampleCodec tree3 1 vA m3 seg3a seg3b rfl (by decide) rfl rfl rfl
      (by decide) (by decide) (by decide) (by decide) (by decide) (by decide) (by decide)
  exact ⟨t2, h1, h2⟩

/-- C10: every state reachable from `LSMTree::new` by successful
calls keeps the memtable strictly below the flush threshold, which
is 10 in the code; in particular a threshold-crossing insert
flushes and leaves the memtable empty before returning. -/
theorem c10_memtable_below_threshold (c : Codec) (t : LSMTree) (h : Reachable c t) :
    t.memtable.length < t.sstable_size ∧ t.sstable_size = 10 := by
  induction h with
  | new => exact ⟨by decide, rfl⟩
  | insert_ok env t0 t2 key v hreach heq ih =>
    obtain ⟨ihlen, ihsize⟩ := ih
    unfold LSMTree.insert at heq
    by_cases hcond : t0.sstable_size ≤ (btInsert t0.memtable key v).length
    · rw [if_pos hcond] at heq
      unfold flush_memtable at heq
      split_ifs at heq with h1 h2 h3 h4
      cases heq
      constructor
      · show (0 : Nat) < t0.sstable_size
        omega
      · exact ihsize
    · rw [if_neg hcond] at heq
      cases heq
      exact ⟨Nat.not_le.mp hcond, ihsize⟩
  | delete_ok t0 t2 key hreach heq ih =>
    obtain ⟨ihlen, ihsize⟩ := ih
    have hlen := btRemove_length t0.memtable key
    unfold LSMTree.delete at heq
    by_cases hr : (btRemove t0.memtable key).1.isSome
    · rw [if_pos hr] at heq
      cases heq
      exact ⟨lt_of_le_of_lt hlen ihlen, ihsize⟩
    · rw [if_neg hr] at heq
      cases htn : tombstoneNewest key t0.sstables with
      | some segs =>
        rw [htn] at heq
        cases heq
        exact ⟨lt_of_le_of_lt hlen ihlen, ihsize⟩
      | none =>
        rw [htn] at heq
        cases heq

/-- Witness for C10 at a state reached by one insert from a fresh
engine. -/
theorem c10_memtable_below_threshold_witness :
    tree10.memtable.length < tree10.sstable_size ∧ tree10.sstable_size = 10 :=
  c10_memtable_below_threshold sampleCodec tree10
    (Reachable.insert_ok envOk LSMTree.new tree10 5 vA Reachable.new (by decide))

end Lsm
